import Mathlib

/-!
Shallow embedding of the core of the `ethabi` crate (Ethereum contract ABI
codec): the type system (`ParamType`), the token model (`Token`), the
head/tail encoder (`encoder.rs`), the decoder (`decoder.rs`), the function
call builder (`function.rs`), the event log parser (`event.rs`), the lenient
signed-integer tokenizer (`token/lenient.rs`), the textual type reader
(`param_type/reader.rs`) and the contract JSON visitor (`contract.rs`).

Bytes are modelled as `List Nat` (each entry a byte value), a 32-byte Word as
a `List Nat` of length 32, and Rust `Result<T, Error>` as `Except`.
Keccak-256 is out of scope for the source crate (an external pure function),
so every definition that needs it takes it as an explicit functional
parameter `kec`.
-/

/-- ABI parameter types, from `param_type/param_type.rs` (the codec-side
enum: no tuple variant). -/
inductive ParamType where
  | Address
  | Bytes
  | Int (n : Nat)
  | Uint (n : Nat)
  | Bool
  | String
  | Array (t : ParamType)
  | FixedBytes (n : Nat)
  | FixedArray (t : ParamType) (n : Nat)
  deriving Repr, DecidableEq

/-- `ParamType::is_empty_bytes_valid_encoding` from `param_type/param_type.rs`:
whether a zero length byte slice is a valid encoded form of this type. -/
def is_empty_bytes_valid_encoding : ParamType → Bool
  | .FixedBytes len => len == 0
  | .FixedArray _ len => len == 0
  | _ => false

/-- Canonical textual form of a `ParamType`.  Modelled from the spec:
`param_type/writer.rs` is not in the source tree; spec section 3 gives the
canonical forms `address`, `bool`, `string`, `bytes`, `bytesN`, `uintN`,
`intN`, `T[]`, `T[N]`. -/
def write_param_type : ParamType → String
  | .Address => "address"
  | .Bytes => "bytes"
  | .Int n => "int" ++ toString n
  | .Uint n => "uint" ++ toString n
  | .Bool => "bool"
  | .String => "string"
  | .Array t => write_param_type t ++ "[]"
  | .FixedBytes n => "bytes" ++ toString n
  | .FixedArray t n => write_param_type t ++ "[" ++ toString n ++ "]"

/-- Runtime token values.  Modelled from the spec: `token/token.rs` is not in
the source tree; spec section 3 gives one variant per ParamType carrying the
runtime value (this codec-side model has no tuple variant, and `Array` /
`FixedArray` carry only their element tokens, as consumed by `encoder.rs` and
produced by `decoder.rs`).  A `String` value is kept as its decoded
character list. -/
inductive Token where
  | Address (a : List Nat)
  | Bytes (b : List Nat)
  | Int (w : List Nat)
  | Uint (w : List Nat)
  | Bool (b : Bool)
  | String (s : List Char)
  | FixedBytes (b : List Nat)
  | Array (ts : List Token)
  | FixedArray (ts : List Token)
  deriving Repr

mutual
/-- `Token::is_dynamic`.  Modelled from the spec: `token/token.rs` is not in
the source tree; spec section 3 classifies `Bytes`, `String` and `Array` as
dynamic, a `FixedArray` as dynamic iff an element is dynamic. -/
def is_dynamic : Token → Bool
  | .Bytes _ => true
  | .String _ => true
  | .Array _ => true
  | .FixedArray ts => any_dynamic ts
  | _ => false

/-- Whether any token of the list is dynamic (`tokens.iter().any(..)`). -/
def any_dynamic : List Token → Bool
  | [] => false
  | t :: ts => is_dynamic t || any_dynamic ts
end

mutual
/-- `Token::type_check`.  Modelled from the spec: `token/token.rs` is not in
the source tree; spec section 4.C: the token variant must match the
ParamType, `FixedBytes(b)` requires `len(b) == n`, `FixedArray` requires the
declared length and element-wise checks, `Array` requires element-wise
checks. -/
def type_check : Token → ParamType → Bool
  | .Address _, .Address => true
  | .Bytes _, .Bytes => true
  | .Int _, .Int _ => true
  | .Uint _, .Uint _ => true
  | .Bool _, .Bool => true
  | .String _, .String => true
  | .FixedBytes b, .FixedBytes n => b.length == n
  | .Array ts, .Array t => type_check_all ts t
  | .FixedArray ts, .FixedArray t n => ts.length == n && type_check_all ts t
  | _, _ => false

/-- All tokens of a list type-check against one element type. -/
def type_check_all : List Token → ParamType → Bool
  | [], _ => true
  | tok :: ts, t => type_check tok t && type_check_all ts t
end

/-- `type_check` from `function.rs` (also `Token::types_check`): lengths
match and tokens type-check pointwise. -/
def types_check (tokens : List Token) (param_types : List ParamType) : Bool :=
  param_types.length == tokens.length &&
    (List.zip param_types tokens).all fun e => type_check e.2 e.1

/-- A minimal UTF-8 encoder (Rust `str::as_bytes`), used by the encoder for
`Token::String` values. -/
def utf8_encode_char (c : Char) : List Nat :=
  let n := c.toNat
  if n < 0x80 then [n]
  else if n < 0x800 then [0xc0 + n / 64, 0x80 + n % 64]
  else if n < 0x10000 then [0xe0 + n / 4096, 0x80 + n / 64 % 64, 0x80 + n % 64]
  else [0xf0 + n / 262144, 0x80 + n / 4096 % 64, 0x80 + n / 64 % 64, 0x80 + n % 64]

/-- UTF-8 encoding of a character list. -/
def utf8_encode (s : List Char) : List Nat :=
  (s.map utf8_encode_char).flatten

/-- One step of UTF-8 decoding (Rust `String::from_utf8`): decodes the
leading character, returns it and the rest, or `none` on invalid input. -/
def utf8_decode_step (bs : List Nat) : Option (Char × List Nat) :=
  match bs with
  | [] => none
  | b :: rest =>
    if b < 0x80 then
      some (Char.ofNat b, rest)
    else if b < 0xc2 then none
    else if b < 0xe0 then
      match rest with
      | b1 :: rest1 =>
        if 0x80 ≤ b1 ∧ b1 < 0xc0 then
          let n := (b - 0xc0) * 64 + (b1 - 0x80)
          if n < 0xd800 then some (Char.ofNat n, rest1) else none
        else none
      | _ => none
    else if b < 0xf0 then
      match rest with
      | b1 :: b2 :: rest2 =>
        if 0x80 ≤ b1 ∧ b1 < 0xc0 ∧ 0x80 ≤ b2 ∧ b2 < 0xc0 then
          let n := (b - 0xe0) * 4096 + (b1 - 0x80) * 64 + (b2 - 0x80)
          if 0x800 ≤ n ∧ (n < 0xd800 ∨ 0xdfff < n) ∧ n < 0x110000 then
            some (Char.ofNat n, rest2)
          else none
        else none
      | _ => none
    else if b < 0xf5 then
      match rest with
      | b1 :: b2 :: b3 :: rest3 =>
        if 0x80 ≤ b1 ∧ b1 < 0xc0 ∧ 0x80 ≤ b2 ∧ b2 < 0xc0 ∧ 0x80 ≤ b3 ∧ b3 < 0xc0 then
          let n := (b - 0xf0) * 262144 + (b1 - 0x80) * 4096 + (b2 - 0x80) * 64 + (b3 - 0x80)
          if 0x10000 ≤ n ∧ n < 0x110000 then
            some (Char.ofNat n, rest3)
          else none
        else none
      | _ => none
    else none

/-- UTF-8 validation/decoding of a byte list, with fuel equal to the number
of bytes (each step consumes at least one byte). -/
def utf8_decode_fuel : Nat → List Nat → Option (List Char)
  | _, [] => some []
  | 0, _ :: _ => none
  | fuel + 1, bs@(_ :: _) =>
    match utf8_decode_step bs with
    | none => none
    | some (c, rest) =>
      match utf8_decode_fuel fuel rest with
      | none => none
      | some cs => some (c :: cs)

/-- UTF-8 validation/decoding (Rust `String::from_utf8`). -/
def utf8_decode (bs : List Nat) : Option (List Char) :=
  utf8_decode_fuel bs.length bs

/-- `pad_u32` from `util.rs`: a `u32` value right-aligned in a 32-byte
word (the value is truncated to 32 bits as by Rust's `as u32`). -/
def pad_u32 (value : Nat) : List Nat :=
  let v := value % 2 ^ 32
  List.replicate 28 0 ++ [v / 2 ^ 24 % 256, v / 2 ^ 16 % 256, v / 2 ^ 8 % 256, v % 256]

/-- `pad_fixed_bytes` from `encoder.rs`: chunk bytes into 32-byte words, the
last word right-padded with zeros; empty input yields no words.  (The source
computes `(len + 31) / 32` words by index; this accumulator formulation
produces the same chunking.) -/
def pad_fixed_bytes_go : List Nat → List Nat → List (List Nat)
  | [], acc => if acc.isEmpty then [] else [acc ++ List.replicate (32 - acc.length) 0]
  | b :: rest, acc =>
    if acc.length == 31 then (acc ++ [b]) :: pad_fixed_bytes_go rest []
    else pad_fixed_bytes_go rest (acc ++ [b])

/-- `pad_fixed_bytes` from `encoder.rs`. -/
def pad_fixed_bytes (bytes : List Nat) : List (List Nat) :=
  pad_fixed_bytes_go bytes []

/-- `pad_bytes` from `encoder.rs`: a `pad_u32` length word followed by the
right-padded payload words. -/
def pad_bytes (bytes : List Nat) : List (List Nat) :=
  pad_u32 bytes.length :: pad_fixed_bytes bytes

/-- The `Mediate` intermediate of `encoder.rs`. -/
inductive Mediate where
  | Raw (ws : List (List Nat))
  | Prefixed (ws : List (List Nat))
  | PrefixedArray (ms : List Mediate)
  | PrefixedArrayWithLength (ms : List Mediate)
  deriving Repr

/-- `Mediate::head_len` from `encoder.rs`. -/
def Mediate.head_len : Mediate → Nat
  | .Raw raw => 32 * raw.length
  | .Prefixed _ => 32
  | .PrefixedArray _ => 32
  | .PrefixedArrayWithLength _ => 32

mutual
/-- `Mediate::tail_len` from `encoder.rs`. -/
def Mediate.tail_len : Mediate → Nat
  | .Raw _ => 0
  | .Prefixed pre => pre.length * 32
  | .PrefixedArray mediates => Mediate.head_tail_len_sum mediates
  | .PrefixedArrayWithLength mediates => 32 + Mediate.head_tail_len_sum mediates

/-- The fold `Σ (head_len m + tail_len m)` over a mediate list (the source's
`fold` with accumulator). -/
def Mediate.head_tail_len_sum : List Mediate → Nat
  | [] => 0
  | m :: ms => (m.head_len + m.tail_len) + Mediate.head_tail_len_sum ms
end

/-- Sum of `head_len` over a mediate list (`heads_len` in
`encode_head_tail`). -/
def Mediate.heads_len_sum : List Mediate → Nat
  | [] => 0
  | m :: ms => m.head_len + Mediate.heads_len_sum ms

/-- `Mediate::head` from `encoder.rs`: raw words inline, otherwise one
offset word. -/
def Mediate.head (m : Mediate) (suffix_offset : Nat) : List (List Nat) :=
  match m with
  | .Raw raw => raw
  | .Prefixed _ => [pad_u32 suffix_offset]
  | .PrefixedArray _ => [pad_u32 suffix_offset]
  | .PrefixedArrayWithLength _ => [pad_u32 suffix_offset]

mutual
/-- `Mediate::tail` from `encoder.rs` (with `encode_head_tail` of the
children inlined as its head and tail folds). -/
def Mediate.tail : Mediate → List (List Nat)
  | .Raw _ => []
  | .Prefixed raw => raw
  | .PrefixedArray mediates =>
    Mediate.heads mediates (Mediate.heads_len_sum mediates) ++ Mediate.tails mediates
  | .PrefixedArrayWithLength mediates =>
    pad_u32 mediates.length ::
      (Mediate.heads mediates (Mediate.heads_len_sum mediates) ++ Mediate.tails mediates)

/-- The heads fold of `encode_head_tail`: emit each head while accumulating
the suffix offset by the emitted mediate's `tail_len`. -/
def Mediate.heads : List Mediate → Nat → List (List Nat)
  | [], _ => []
  | m :: ms, offset => m.head offset ++ Mediate.heads ms (offset + m.tail_len)

/-- The tails fold of `encode_head_tail`: concatenated tails. -/
def Mediate.tails : List Mediate → List (List Nat)
  | [] => []
  | m :: ms => m.tail ++ Mediate.tails ms
end

/-- `encode_head_tail` from `encoder.rs`: all heads (offsets starting after
the final head) followed by all tails. -/
def encode_head_tail (mediates : List Mediate) : List (List Nat) :=
  Mediate.heads mediates (Mediate.heads_len_sum mediates) ++ Mediate.tails mediates

mutual
/-- `encode_token` from `encoder.rs`. -/
def encode_token : Token → Mediate
  | .Address address => .Raw [List.replicate 12 0 ++ address]
  | .Bytes bytes => .Prefixed (pad_bytes bytes)
  | .String s => .Prefixed (pad_bytes (utf8_encode s))
  | .FixedBytes bytes => .Raw (pad_fixed_bytes bytes)
  | .Int int => .Raw [int]
  | .Uint uint => .Raw [uint]
  | .Bool b => .Raw [List.replicate 31 0 ++ [if b then 1 else 0]]
  | .Array tokens => .PrefixedArrayWithLength (encode_tokens tokens)
  | .FixedArray tokens =>
    if any_dynamic tokens then .PrefixedArray (encode_tokens tokens)
    else .Raw (encode_head_tail (encode_tokens tokens))

/-- `tokens.iter().map(encode_token).collect()`. -/
def encode_tokens : List Token → List Mediate
  | [] => []
  | t :: ts => encode_token t :: encode_tokens ts
end

/-- `encode` from `encoder.rs`: head/tail of the token mediates, flattened
to bytes. -/
def encode (tokens : List Token) : List Nat :=
  (encode_head_tail (encode_tokens tokens)).flatten

/-- Decoder-side errors, modelling the `error-chain` errors used by
`decoder.rs`: `InvalidData`, UTF-8 failures, `bail!` message errors, and
`chain_err` wrapping (a message kind with a cause). -/
inductive DecError where
  | InvalidData
  | Utf8
  | Msg (s : String)
  | Other (s : String)
  | Chained (msg : String) (cause : DecError)
  deriving Repr, DecidableEq

/-- The `bail!` message of `decode` on empty input (abbreviated from the
source text). -/
def empty_bytes_bail_msg : String :=
  "failed to decode empty bytes"

/-- `as_usize` from `decoder.rs`: the first 28 bytes must be zero, the last
4 are a big-endian usize. -/
def as_usize (slice : List Nat) : Except DecError Nat :=
  if !((slice.take 28).all (· == 0)) then .error .InvalidData
  else
    .ok ((slice.getD 28 0) * 2 ^ 24 + (slice.getD 29 0) * 2 ^ 16 +
      (slice.getD 30 0) * 2 ^ 8 + slice.getD 31 0)

/-- `as_bool` from `decoder.rs`: the first 31 bytes must be zero; the value
is whether the last byte equals 1. -/
def as_bool (slice : List Nat) : Except DecError Bool :=
  if !((slice.take 31).all (· == 0)) then .error .InvalidData
  else .ok (slice.getD 31 0 == 1)

/-- `peek` from `decoder.rs`: `data[offset..offset+len]`, `InvalidData` when
out of range. -/
def peek (data : List Nat) (offset len : Nat) : Except DecError (List Nat) :=
  if offset + len > data.length then .error .InvalidData
  else .ok ((data.drop offset).take len)

/-- `peek_32_bytes` from `decoder.rs`. -/
def peek_32_bytes (data : List Nat) (offset : Nat) : Except DecError (List Nat) :=
  peek data offset 32

/-- `take_bytes` from `decoder.rs`. -/
def take_bytes (data : List Nat) (offset len : Nat) : Except DecError (List Nat) :=
  if offset + len > data.length then .error .InvalidData
  else .ok ((data.drop offset).take len)

/-- The element loop of the `Array` / `FixedArray` branches of
`decode_param`: decode `n` elements with the given element decoder, threading
the offset. -/
def decode_elems (f : List Nat → Nat → Except DecError (Token × Nat)) :
    Nat → List Nat → Nat → Except DecError (List Token × Nat)
  | 0, _, offset => .ok ([], offset)
  | n + 1, data, offset => do
    let r ← f data offset
    let rs ← decode_elems f n data r.2
    .ok (r.1 :: rs.1, rs.2)

/-- `decode_param` from `decoder.rs`.  The result pairs the decoded token
with the `new_offset` of the source's `DecodeResult`. -/
def decode_param : ParamType → List Nat → Nat → Except DecError (Token × Nat)
  | .Address => fun data offset => do
    let slice ← peek_32_bytes data offset
    .ok (.Address (slice.drop 12), offset + 32)
  | .Int _ => fun data offset => do
    let slice ← peek_32_bytes data offset
    .ok (.Int slice, offset + 32)
  | .Uint _ => fun data offset => do
    let slice ← peek_32_bytes data offset
    .ok (.Uint slice, offset + 32)
  | .Bool => fun data offset => do
    let slice ← peek_32_bytes data offset
    let b ← as_bool slice
    .ok (.Bool b, offset + 32)
  | .FixedBytes len => fun data offset => do
    let bytes ← take_bytes data offset len
    .ok (.FixedBytes bytes, offset + 32)
  | .Bytes => fun data offset => do
    let slice ← peek_32_bytes data offset
    let dynamic_offset ← as_usize slice
    let len_slice ← peek_32_bytes data dynamic_offset
    let len ← as_usize len_slice
    let bytes ← take_bytes data (dynamic_offset + 32) len
    .ok (.Bytes bytes, offset + 32)
  | .String => fun data offset => do
    let slice ← peek_32_bytes data offset
    let dynamic_offset ← as_usize slice
    let len_slice ← peek_32_bytes data dynamic_offset
    let len ← as_usize len_slice
    let bytes ← take_bytes data (dynamic_offset + 32) len
    match utf8_decode bytes with
    | none => .error .Utf8
    | some s => .ok (.String s, offset + 32)
  | .Array t => fun data offset => do
    let slice ← peek_32_bytes data offset
    let dynamic_offset ← as_usize slice
    let len_slice ← peek_32_bytes data dynamic_offset
    let len ← as_usize len_slice
    let r ← decode_elems (decode_param t) len data (dynamic_offset + 32)
    .ok (.Array r.1, offset + 32)
  | .FixedArray t len => fun data offset => do
    let r ← decode_elems (decode_param t) len data offset
    .ok (.FixedArray r.1, r.2)

/-- The `for param in types` loop of `decode`, wrapping each element error
with the `chain_err` context message. -/
def decode_loop : List ParamType → List Nat → Nat → Except DecError (List Token)
  | [], _, _ => .ok []
  | p :: ps, data, offset =>
    match (decode_param p data offset).mapError
        (fun e => .Chained ("Cannot decode " ++ write_param_type p) e) with
    | .error e => .error e
    | .ok r => do
      let toks ← decode_loop ps data r.2
      .ok (r.1 :: toks)

/-- `decode` from `decoder.rs`: bail out on empty data unless every type has
the empty-bytes-valid-encoding property, then decode each type in turn. -/
def decode (types : List ParamType) (data : List Nat) : Except DecError (List Token) :=
  if !(types.all is_empty_bytes_valid_encoding) && data.isEmpty then
    .error (.Msg empty_bytes_bail_msg)
  else decode_loop types data 0

/-- Named parameter descriptor (`param.rs`). -/
structure Param where
  name : String
  kind : ParamType
  internal_type : Option String
  deriving Repr

/-- `StateMutability` (`state_mutability.rs`). -/
inductive StateMutability where
  | Pure
  | View
  | NonPayable
  | Payable
  deriving Repr, DecidableEq

/-- Contract function specification (`function.rs`).  Named `AbiFunction`
because `Function` is an existing Lean namespace. -/
structure AbiFunction where
  name : String
  inputs : List Param
  outputs : List Param
  constant : Bool
  state_mutability : StateMutability
  deriving Repr

/-- `Function::input_param_types`. -/
def input_param_types (f : AbiFunction) : List ParamType :=
  f.inputs.map (·.kind)

/-- The byte string `name(T1,...,Tn)` hashed for signatures.  Modelled from
the spec: `signature.rs` is not in the source tree; spec section 4.G gives
`sig(name, params) = keccak256(name ‖ "(" ‖ join(",", canon(pi)) ‖ ")")`. -/
def signature_preimage (name : String) (params : List ParamType) : List Nat :=
  utf8_encode (name ++ "(" ++ String.intercalate "," (params.map write_param_type) ++ ")").data

/-- `long_signature`: the full 32-byte keccak hash of the canonical
signature; `kec` is the keccak-256 oracle. -/
def long_signature (kec : List Nat → List Nat) (name : String) (params : List ParamType) :
    List Nat :=
  kec (signature_preimage name params)

/-- `short_signature`: the first 4 bytes of the keccak hash of the canonical
signature.  Modelled from the spec (spec section 4.G). -/
def short_signature (kec : List Nat → List Nat) (name : String) (params : List ParamType) :
    List Nat :=
  (long_signature kec name params).take 4

/-- `Function::encode_input` from `function.rs`: type-check the tokens
against the input types, fail closed with `InvalidData`, else emit the
4-byte selector followed by `encode(tokens)`. -/
def encode_input (kec : List Nat → List Nat) (f : AbiFunction) (tokens : List Token) :
    Except DecError (List Nat) :=
  let params := input_param_types f
  if !types_check tokens params then .error .InvalidData
  else .ok (short_signature kec f.name params ++ encode tokens)

/-- Event parameter descriptor (`event_param.rs`). -/
structure EventParam where
  name : String
  kind : ParamType
  indexed : Bool
  deriving Repr

/-- Contract event specification (`event.rs` interface). -/
structure AbiEvent where
  name : String
  inputs : List EventParam
  anonymous : Bool
  deriving Repr

/-- `Event::indexed_params`.  Modelled from the spec: the event interface
helpers live in the missing `spec/event.rs`; they filter the inputs by the
`indexed` flag, preserving declaration order. -/
def indexed_params (e : AbiEvent) (indexed : Bool) : List EventParam :=
  e.inputs.filter (·.indexed == indexed)

/-- `Event::params_names`.  Modelled from the spec: all input names in
declaration order. -/
def params_names (e : AbiEvent) : List String :=
  e.inputs.map (·.name)

/-- `Event::param_types`.  Modelled from the spec: all input types in
declaration order. -/
def event_param_types (e : AbiEvent) : List ParamType :=
  e.inputs.map (·.kind)

/-- Decoded log param (`log.rs`). -/
structure LogParam where
  name : String
  value : Token
  deriving Repr

/-- Raw log: topics and data (`log.rs`). -/
structure RawLog where
  topics : List (List Nat)
  data : List Nat
  deriving Repr

/-- Decoded log (`log.rs`). -/
structure Log where
  params : List LogParam
  deriving Repr

/-- Lookup in the name-keyed `HashMap` built by `parse_log`: entries are
inserted in list order and a later insert of the same key overwrites, so
the last binding of the name wins. -/
def lookup_last (l : List (String × Token)) (nm : String) : Option Token :=
  (l.reverse.find? (·.1 == nm)).map (·.2)

/-- `Event::parse_log` from `event.rs`.  `kec` is the keccak-256 oracle used
for the event's topic-0 signature hash.  The source's final
`named_tokens.get(&name).unwrap()` is modelled with a (provably unreachable)
`Bool false` default. -/
def parse_log (kec : List Nat → List Nat) (event : AbiEvent) (log : RawLog) :
    Except DecError Log := do
  let topics := log.topics
  let data := log.data
  let topics_len := topics.length
  let topic_params := indexed_params event true
  let data_params := indexed_params event false
  let to_skip ←
    if event.anonymous then (.ok 0 : Except DecError Nat)
    else
      match topics with
      | [] => .error .InvalidData
      | t0 :: _ =>
        if t0 == long_signature kec event.name (event_param_types event) then .ok 1
        else .error .InvalidData
  let topic_types := topic_params.map (·.kind)
  let flat_topics := (topics.drop to_skip).flatten
  let topic_tokens ← decode topic_types flat_topics
  if topic_tokens.length ≠ topics_len - to_skip then .error .InvalidData
  else do
    let data_types := data_params.map (·.kind)
    let data_tokens ← decode data_types data
    let named_tokens :=
      (topic_params.map (·.name)).zip topic_tokens ++ (data_params.map (·.name)).zip data_tokens
    .ok ⟨(params_names event).map fun nm =>
      ⟨nm, (lookup_last named_tokens nm).getD (.Bool false)⟩⟩

/-- A `Uint` (`U256`) value as a 32-byte big-endian word (`uint.into()`). -/
def uint_to_word (n : Nat) : List Nat :=
  (List.range 32).map fun i => n / 2 ^ (8 * (31 - i)) % 256

/-- `FromDecStrErr` of the external `uint` crate. -/
inductive FromDecStrErr where
  | InvalidCharacter
  | InvalidLength
  deriving Repr, DecidableEq

/-- The digit loop of the `uint` crate's `from_dec_str`: multiply-accumulate
with overflow checks at the `U256` bound (`overflowing_mul` /
`overflowing_add` report overflow, mapped to `InvalidLength`). -/
def from_dec_str_go : Nat → List Char → Except FromDecStrErr Nat
  | res, [] => .ok res
  | res, c :: cs =>
    if 48 ≤ c.toNat ∧ c.toNat ≤ 57 then
      let b := c.toNat - 48
      if res * 10 ≥ 2 ^ 256 then .error .InvalidLength
      else if res * 10 + b ≥ 2 ^ 256 then .error .InvalidLength
      else from_dec_str_go (res * 10 + b) cs
    else .error .InvalidCharacter

/-- `Uint::from_dec_str` of the external `uint` crate: decimal digits only,
overflow beyond `2^256 - 1` is `InvalidLength`. -/
def from_dec_str (s : List Char) : Except FromDecStrErr Nat :=
  from_dec_str_go 0 s

/-- A hexadecimal digit (`0-9a-fA-F`). -/
def is_hex_digit (c : Char) : Bool :=
  (48 ≤ c.toNat && c.toNat ≤ 57) || (97 ≤ c.toNat && c.toNat ≤ 102) ||
    (65 ≤ c.toNat && c.toNat ≤ 70)

/-- Value of a hexadecimal digit. -/
def hex_val (c : Char) : Nat :=
  if 48 ≤ c.toNat && c.toNat ≤ 57 then c.toNat - 48
  else if 97 ≤ c.toNat then c.toNat - 87
  else c.toNat - 55

/-- Bytes of a hex string, two digits per byte. -/
def hex_to_bytes : List Char → List Nat
  | c1 :: c2 :: rest => (hex_val c1 * 16 + hex_val c2) :: hex_to_bytes rest
  | _ => []

/-- `StrictTokenizer::tokenize_int`.  Modelled from the spec:
`token/strict.rs` is not in the source tree; spec section 4.D says strict
mode accepts `2n` hex characters for an n-byte integer, so `Int(256)`
accepts exactly 64 hex characters (decoded as the 32-byte word). -/
def strict_tokenize_int (s : List Char) : Except DecError (List Nat) :=
  if s.length == 64 && s.all is_hex_digit then .ok (hex_to_bytes s)
  else .error .InvalidData

/-- `LenientTokenizer::tokenize_int` from `token/lenient.rs`: try the strict
hex form first; otherwise parse the decimal absolute value, check the
`[-2^255, 2^255-1]` range and store negatives as two's-complement
(`!abs + 1`). -/
def tokenize_int (value : String) : Except DecError (List Nat) :=
  match strict_tokenize_int value.data with
  | .ok r => .ok r
  | .error _ =>
    match from_dec_str (value.data.dropWhile (· == '-')) with
    | .error .InvalidCharacter => .error (.Other "Uint parse error: InvalidCharacter")
    | .error .InvalidLength => .error (.Other "Uint parse error: InvalidLength")
    | .ok abs =>
      let max := (2 ^ 256 - 1) / 2
      if value.data.head? == some '-' then
        if abs == 0 then .ok (uint_to_word abs)
        else if abs > max + 1 then .error (.Other "int256 parse error: Underflow")
        else .ok (uint_to_word (((2 ^ 256 - 1 - abs) + 1) % 2 ^ 256))
      else
        if abs > max then .error (.Other "int256 parse error: Overflow")
        else .ok (uint_to_word abs)

/-- Reader-side parameter types, from `param_type/reader.rs` (the reader
generation of the crate also has a `Tuple` variant). -/
inductive RParamType where
  | Address
  | Bytes
  | Int (n : Nat)
  | Uint (n : Nat)
  | Bool
  | String
  | Array (t : RParamType)
  | FixedBytes (n : Nat)
  | FixedArray (t : RParamType) (n : Nat)
  | Tuple (ts : List RParamType)
  deriving Repr

/-- Outcomes of `Reader::read` that are not a `ParamType`: a returned error
value (`Error::ParseInt`), or a Rust panic (which is not a return at all). -/
inductive ReadError where
  | ParseInt
  | Panicked (s : String)
  deriving Repr, DecidableEq

/-- ASCII whitespace, for `str::trim`. -/
def is_ws (c : Char) : Bool :=
  c == ' ' || c == '\t' || c == '\n' || c == '\r'

/-- `str::trim`: strip leading and trailing whitespace. -/
def trim_chars (s : List Char) : List Char :=
  ((s.dropWhile is_ws).reverse.dropWhile is_ws).reverse

/-- The reverse scan of `Reader::read_array` looking for the opening bracket
matching the final `]`: walks the reversed characters keeping the bracket
balance and the byte index `i`, which the source decrements with `i -= 1`;
when `i` is 0 and the loop continues, the `usize` subtraction underflows and
the Rust program panics (debug semantics), modelled as `Panicked`. -/
def find_open : List Char → Int → Nat → Except ReadError Nat
  | [], _, _ => .error (.Panicked "reverse scan exhausted")
  | c :: rest, brackets, i =>
    if c == ']' then
      if i == 0 then .error (.Panicked "attempt to subtract with overflow")
      else find_open rest (brackets + 1) (i - 1)
    else if c == '[' then
      let brackets' := brackets - 1
      if brackets' == 0 then .ok i
      else if i == 0 then .error (.Panicked "attempt to subtract with overflow")
      else find_open rest brackets' (i - 1)
    else
      if i == 0 then .error (.Panicked "attempt to subtract with overflow")
      else find_open rest brackets (i - 1)

/-- `str::parse::<usize>` for the array size and integer width suffixes:
digits only, value bounded by `usize::MAX`; failures are `ParseInt`. -/
def parse_usize (s : List Char) : Except ReadError Nat :=
  if s ≠ [] ∧ s.all (fun c => 48 ≤ c.toNat ∧ c.toNat ≤ 57) ∧
      s.foldl (fun a c => a * 10 + (c.toNat - 48)) 0 < 2 ^ 64 then
    .ok (s.foldl (fun a c => a * 10 + (c.toNat - 48)) 0)
  else .error .ParseInt

/-- `Reader::read_primitive` from `param_type/reader.rs`, including its
final `Ok(ParamType::Uint(8))` fallback for unrecognized names. -/
def read_primitive (s : List Char) : Except ReadError RParamType :=
  if s == "address".data then .ok .Address
  else if s == "bytes".data then .ok .Bytes
  else if s == "bool".data then .ok .Bool
  else if s == "string".data then .ok .String
  else if s == "int".data then .ok (.Int 256)
  else if s == "tuple".data then .ok (.Tuple [])
  else if s == "uint".data then .ok (.Uint 256)
  else if s.take 3 == "int".data then
    match parse_usize (s.drop 3) with
    | .ok len => .ok (.Int len)
    | .error e => .error e
  else if s.take 4 == "uint".data then
    match parse_usize (s.drop 4) with
    | .ok len => .ok (.Uint len)
    | .error e => .error e
  else if s.take 5 == "bytes".data then
    match parse_usize (s.drop 5) with
    | .ok len => .ok (.FixedBytes len)
    | .error e => .error e
  else .ok (.Uint 8)

/-- The top-level comma split of `Reader::read_tuple`, tracking the
parenthesis nesting depth (`cur` accumulates the current piece reversed). -/
def split_top : List Char → Int → List Char → List (List Char)
  | [], _, cur => [cur.reverse]
  | c :: rest, parens, cur =>
    if c == ',' && parens == 0 then cur.reverse :: split_top rest parens []
    else
      split_top rest
        (if c == '(' then parens + 1 else if c == ')' then parens - 1 else parens)
        (c :: cur)

/-- The subtype reads of `read_tuple`, in order, first failure propagating
(`rd` is the recursive `Reader::read`). -/
def read_pieces_with (rd : List Char → Except ReadError RParamType) :
    List (List Char) → Except ReadError (List RParamType)
  | [] => .ok []
  | p :: ps => do
    let t ← rd p
    let ts ← read_pieces_with rd ps
    .ok (t :: ts)

/-- `Reader::read_tuple`: split at top-level commas and read every piece. -/
def read_tuple_with (rd : List Char → Except ReadError RParamType) (s : List Char) :
    Except ReadError RParamType := do
  let ts ← read_pieces_with rd (split_top s 0 [])
  .ok (.Tuple ts)

/-- `Reader::read_array`: locate the `[` matching the final `]` by the
reverse scan, read the prefix as the element type, then parse the size
(empty size means a dynamic array). -/
def read_array_with (rd : List Char → Except ReadError RParamType) (s : List Char) :
    Except ReadError RParamType := do
  let i ← find_open s.reverse 0 (s.length - 1)
  let size_str := (s.take (s.length - 1)).drop (i + 1)
  let subtype ← rd (s.take i)
  match size_str with
  | [] => .ok (.Array subtype)
  | _ =>
    match parse_usize size_str with
    | .ok len => .ok (.FixedArray subtype len)
    | .error e => .error e

/-- `Reader::read` from `param_type/reader.rs`, with a fuel parameter for
termination (each level of recursion strictly shortens the parsed string, so
the fuel chosen by `Reader_read` below is never exhausted). -/
def read_fuel : Nat → List Char → Except ReadError RParamType
  | 0, _ => .error (.Panicked "out of fuel")
  | fuel + 1, name0 =>
    let name := trim_chars name0
    if name.head? == some '(' && name.getLast? == some ')' then
      read_tuple_with (read_fuel fuel) (name.drop 1).dropLast
    else if name.getLast? == some ']' then
      read_array_with (read_fuel fuel) name
    else read_primitive name

/-- `Reader::read`: the fueled reader with a fuel budget that dominates the
recursion depth (which is at most twice the string length plus one). -/
def Reader_read (s : String) : Except ReadError RParamType :=
  read_fuel (3 * s.data.length + 3) s.data

/-- Contract constructor specification (`constructor.rs`). -/
structure AbiConstructor where
  inputs : List Param
  deriving Repr

/-- Contract error specification (`error.rs`). -/
structure AbiErrorDecl where
  name : String
  inputs : List Param
  deriving Repr

/-- `Operation` from `operation.rs`: one tagged element of the ABI JSON
array. -/
inductive Operation where
  | constructorOp (c : AbiConstructor)
  | functionOp (f : AbiFunction)
  | eventOp (e : AbiEvent)
  | errorOp (er : AbiErrorDecl)
  | fallbackOp
  | receiveOp
  deriving Repr

/-- `Contract` from `contract.rs` (the name-keyed `BTreeMap`s are modelled
as association lists from a name to the list of overloads). -/
structure Contract where
  constructor : Option AbiConstructor
  functions : List (String × List AbiFunction)
  events : List (String × List AbiEvent)
  errors : List (String × List AbiErrorDecl)
  receive : Bool
  fallback : Bool
  deriving Repr

/-- `map.entry(name).or_default().push(v)`: append to the overload list of
the name, creating it when absent. -/
def entry_push {α : Type} : List (String × List α) → String → α → List (String × List α)
  | [], k, v => [(k, [v])]
  | (k', vs) :: rest, k, v =>
    if k' == k then (k', vs ++ [v]) :: rest else (k', vs) :: entry_push rest k v

/-- The empty `Contract::default()`. -/
def Contract.default : Contract :=
  ⟨none, [], [], [], false, false⟩

/-- The fold body of `ContractVisitor::visit_seq` from `contract.rs`. -/
def visit_step (acc : Contract) : Operation → Contract
  | .constructorOp c => { acc with constructor := some c }
  | .functionOp f => { acc with functions := entry_push acc.functions f.name f }
  | .eventOp e => { acc with events := entry_push acc.events e.name e }
  | .errorOp er => { acc with errors := entry_push acc.errors er.name er }
  | .fallbackOp => { acc with fallback := true }
  | .receiveOp => { acc with receive := true }

/-- `ContractVisitor::visit_seq` from `contract.rs`: fold the deserialized
operations over the default contract. -/
def visit_seq (ops : List Operation) : Contract :=
  ops.foldl visit_step Contract.default

/-- The constructor operations of an ABI array, in order. -/
def constructors_of (ops : List Operation) : List AbiConstructor :=
  ops.filterMap fun op =>
    match op with
    | .constructorOp c => some c
    | _ => none

/-- Whether a type is `FixedBytes(0)` (used to state the exact empty-data
decode behaviour). -/
def is_fb0 : ParamType → Bool
  | .FixedBytes 0 => true
  | _ => false

/-- A concrete stand-in for the keccak-256 oracle, used to instantiate
keccak-parametric theorems at concrete inputs. -/
def kec_stub : List Nat → List Nat :=
  fun _ => List.replicate 31 0 ++ [9]

/-- The reassembly of `parse_log` results described by the spec: one
`LogParam` per input in declaration order, indexed params taking the next
topic-decoded token, the others the next data-decoded token. -/
def merge_log_params : List EventParam → List Token → List Token → List LogParam
  | [], _, _ => []
  | p :: ps, tt, dt =>
    if p.indexed then ⟨p.name, tt.headD (.Bool false)⟩ :: merge_log_params ps tt.tail dt
    else ⟨p.name, dt.headD (.Bool false)⟩ :: merge_log_params ps tt dt.tail

/-- The duplicate-name event used to refute the unrestricted form of the
log-parsing claim. -/
def dup_event : AbiEvent :=
  ⟨"bar", [⟨"a", .Uint 256, true⟩, ⟨"a", .Uint 256, false⟩], false⟩

/-- A 32-byte word with the given final byte. -/
def word_last (b : Nat) : List Nat :=
  List.replicate 31 0 ++ [b]


/-- A decimal digit character. -/
def is_digit_char (c : Char) : Bool :=
  48 ≤ c.toNat && c.toNat ≤ 57

/-- The numeric value of a decimal digit string. -/
def digits_val (ds : List Char) : Nat :=
  ds.foldl (fun a c => a * 10 + (c.toNat - 48)) 0

/- ----------------------------------------------------------------- -/
/- Theorems.                                                          -/
/- ----------------------------------------------------------------- -/

theorem exc_bind_ok {ε α β : Type} (a : α) (f : α → Except ε β) :
    (Except.ok a >>= f : Except ε β) = f a := rfl

theorem exc_bind_error {ε α β : Type} (e : ε) (f : α → Except ε β) :
    (Except.error e >>= f : Except ε β) = .error e := rfl

/-- **C6.** Type-grammar reader totality.  The claim is false on the code:
on the input `"]"` the reverse bracket scan of `Reader::read_array`
decrements the `usize` index `i` below zero, a Rust panic (`attempt to
subtract with overflow` in debug builds; in release builds the wrapped index
makes the subsequent `&s[..i]` slicing panic), so `Reader::read` does not
return a `ParamType` or error value at all. -/
theorem reader_read_bracket_panics :
    Reader_read "]" = .error (.Panicked "attempt to subtract with overflow") := by
  rfl

/-- **C7.** Type-grammar reader rejection.  The claim is false on the code:
for the unrecognized primitive name `"foo"`, `Reader::read_primitive` falls
through to its `Ok(ParamType::Uint(8))` fallback and silently returns a
`ParamType` instead of an `InvalidName`/`ParseInt` error. -/
theorem reader_read_foo_fallback :
    Reader_read "foo" = .ok (.Uint 8) := by
  rfl

/-- **C10.** Bool word decoding: a 32-byte word decodes as a Bool iff its
first 31 bytes are zero (otherwise `InvalidData`), and the token is
`Bool(true)` exactly when the last byte equals 1; any other last byte gives
`Bool(false)`. -/
theorem decode_param_bool_characterization (w : List Nat) (hw : w.length = 32) :
    decode_param .Bool w 0 =
      if (w.take 31).all (· == 0) then .ok (.Bool (w.getD 31 0 == 1), 32)
      else .error .InvalidData := by
  have hpeek : peek_32_bytes w 0 = .ok w := by
    simp [peek_32_bytes, peek, hw]
  simp only [decode_param, hpeek, exc_bind_ok]
  unfold as_bool
  rcases h : (w.take 31).all (· == 0) with _ | _ <;>
    simp [h, exc_bind_ok, exc_bind_error, List.getD]

/-- **C10 witness.** The 32-byte word whose last byte is 2 (first 31 bytes
zero) decodes successfully to `Bool(false)` rather than being rejected. -/
theorem decode_param_bool_characterization_witness :
    decode_param .Bool (word_last 2) 0 = .ok (.Bool false, 32) := by
  have h := decode_param_bool_characterization (word_last 2) (by rfl)
  simpa [word_last] using h

/-- **C8.** Duplicate-constructor policy: `ContractVisitor::visit_seq` is
total (loading never fails on duplicate constructors) and the resulting
contract's constructor is the last constructor operation of the ABI array
(`none` when there is none). -/
theorem visit_seq_keeps_last_constructor (ops : List Operation) :
    (visit_seq ops).constructor = (constructors_of ops).getLast? := by
  induction ops using List.reverseRecOn with
  | nil => rfl
  | append_singleton ops' op ih =>
    rw [visit_seq, List.foldl_append]
    cases op with
    | constructorOp c =>
      simp [constructors_of, List.filterMap_append, List.getLast?_concat, visit_step]
    | functionOp f =>
      simp only [List.foldl_cons, List.foldl_nil]
      rw [show (constructors_of (ops' ++ [Operation.functionOp f])) = constructors_of ops' by
        simp [constructors_of, List.filterMap_append]]
      rw [← ih]; rfl
    | eventOp e =>
      simp only [List.foldl_cons, List.foldl_nil]
      rw [show (constructors_of (ops' ++ [Operation.eventOp e])) = constructors_of ops' by
        simp [constructors_of, List.filterMap_append]]
      rw [← ih]; rfl
    | errorOp er =>
      simp only [List.foldl_cons, List.foldl_nil]
      rw [show (constructors_of (ops' ++ [Operation.errorOp er])) = constructors_of ops' by
        simp [constructors_of, List.filterMap_append]]
      rw [← ih]; rfl
    | fallbackOp =>
      simp only [List.foldl_cons, List.foldl_nil]
      rw [show (constructors_of (ops' ++ [Operation.fallbackOp])) = constructors_of ops' by
        simp [constructors_of, List.filterMap_append]]
      rw [← ih]; rfl
    | receiveOp =>
      simp only [List.foldl_cons, List.foldl_nil]
      rw [show (constructors_of (ops' ++ [Operation.receiveOp])) = constructors_of ops' by
        simp [constructors_of, List.filterMap_append]]
      rw [← ih]; rfl

/-- **C3.** Function call-data construction: when the tokens type-check
against the function's input types, `encode_input` returns the 4-byte
selector (the first 4 bytes of the keccak-256 hash of the canonical
signature built from the name and the input types) followed by
`encode(tokens)`; when the type-check fails it returns `InvalidData` and no
bytes.  `kec` is the keccak-256 oracle. -/
theorem encode_input_characterization (kec : List Nat → List Nat) (f : AbiFunction)
    (tokens : List Token) :
    (types_check tokens (input_param_types f) = true →
      encode_input kec f tokens =
        .ok ((kec (signature_preimage f.name (input_param_types f))).take 4 ++
          encode tokens)) ∧
    (types_check tokens (input_param_types f) = false →
      encode_input kec f tokens = .error .InvalidData) := by
  constructor <;> intro h <;>
    simp [encode_input, h, short_signature, long_signature]

/-- **C3 witness.** The `baz(uint32,bool)` function of the source's own test:
well-typed tokens produce selector-prefixed call data of 4 + 64 bytes, and an
ill-typed token list is rejected with `InvalidData`. -/
theorem encode_input_characterization_witness :
    (encode_input kec_stub ⟨"baz", [⟨"a", .Uint 32, none⟩, ⟨"b", .Bool, none⟩], [], false,
        .Payable⟩ [.Uint (word_last 69), .Bool true] =
      .ok ((kec_stub (signature_preimage "baz" [.Uint 32, .Bool])).take 4 ++
        encode [.Uint (word_last 69), .Bool true])) ∧
    (encode_input kec_stub ⟨"baz", [⟨"a", .Uint 32, none⟩, ⟨"b", .Bool, none⟩], [], false,
        .Payable⟩ [.Bool true] = .error .InvalidData) := by
  constructor
  · exact (encode_input_characterization kec_stub _ _).1 (by rfl)
  · exact (encode_input_characterization kec_stub _ _).2 (by rfl)

set_option maxRecDepth 100000 in
/-- **C1.** Encode/decode round-trip.  The claim is false on the code: for the
well-typed nested dynamic value `[[true]] : bool[][]`, the encoder emits the
inner array's offset relative to the enclosing array's element block while
the decoder interprets offsets as absolute from the start of the input (as
the decoder's own `decode_dynamic_array_of_dynamic_arrays` test fixes them),
so decoding the encoder's output yields `[[false]]` instead of the original
tokens. -/
theorem nested_dynamic_array_roundtrip_bug :
    types_check [Token.Array [.Array [.Bool true]]] [ParamType.Array (.Array .Bool)] = true ∧
    decode [ParamType.Array (.Array .Bool)] (encode [Token.Array [.Array [.Bool true]]]) =
      .ok [.Array [.Array [.Bool false]]] ∧
    [Token.Array [.Array [.Bool false]]] ≠ [Token.Array [.Array [.Bool true]]] := by
  refine ⟨by rfl, by rfl, by simp⟩

/-- **C2 counterexample.** Both halves of the claim fail on concrete inputs:
`[FixedBytes(0), FixedBytes(0)]` consists only of types with the empty-bytes
valid-encoding property, yet decoding the empty byte string fails (the first
`FixedBytes(0)` advances the offset to 32 and `take_bytes` then rejects
offset 32 on empty data); and for `[Address]` the empty-data failure is the
`bail!` message error, not the `InvalidData` variant. -/
theorem decode_empty_counterexample :
    ([ParamType.FixedBytes 0, ParamType.FixedBytes 0].all is_empty_bytes_valid_encoding
        = true) ∧
    decode [ParamType.FixedBytes 0, ParamType.FixedBytes 0] [] =
      .error (.Chained "Cannot decode bytes0" .InvalidData) ∧
    decode [ParamType.Address] [] = .error (.Msg empty_bytes_bail_msg) ∧
    DecError.Msg empty_bytes_bail_msg ≠ .InvalidData := by
  refine ⟨by rfl, by rfl, by rfl, by decide⟩

theorem exc_isOk_bind_ok {ε α β : Type} (x : Except ε α) (g : α → β) :
    (x >>= fun a => Except.ok (g a) : Except ε β).isOk = x.isOk := by
  cases x <;> rfl

/-- On empty data, a list of empty-bytes-valid types decodes successfully iff
it contains no `FixedBytes(0)` after the offset has moved past 0, and at most
one `FixedBytes(0)` when starting at offset 0 (a `FixedBytes(0)` advances
the offset by 32; a `FixedArray(_, 0)` leaves it unchanged). -/
theorem decode_loop_empty_valid :
    ∀ (ps : List ParamType), ps.all is_empty_bytes_valid_encoding = true →
    ∀ off : Nat,
      ((decode_loop ps [] off).isOk = true ↔
        (if off = 0 then ps.countP is_fb0 ≤ 1 else ps.countP is_fb0 = 0)) := by
  intro ps
  induction ps with
  | nil =>
    intro _ off
    simp only [decode_loop, List.countP_nil]
    by_cases h0 : off = 0 <;> simp [h0, Except.isOk, Except.toBool]
  | cons p ps ih =>
    intro h off
    have hboth := (Bool.and_eq_true _ _).mp (by rw [List.all_cons] at h; exact h)
    have hp : is_empty_bytes_valid_encoding p = true := hboth.1
    have hps : ps.all is_empty_bytes_valid_encoding = true := hboth.2
    have ihs := ih hps
    cases p with
    | FixedBytes n =>
      have hn : n = 0 := by simpa [is_empty_bytes_valid_encoding] using hp
      subst hn
      by_cases hoff : off = 0
      · subst hoff
        have hdp : decode_param (.FixedBytes 0) ([] : List Nat) 0 =
            .ok (.FixedBytes [], 32) := by rfl
        simp only [decode_loop, hdp, Except.mapError, exc_isOk_bind_ok,
          List.countP_cons, is_fb0]
        rw [ihs 32]
        simp
      · have hdp : decode_param (.FixedBytes 0) ([] : List Nat) off =
            .error .InvalidData := by
          simp only [decode_param, take_bytes]
          rw [if_pos (by simp; omega)]
          rfl
        simp only [decode_loop, hdp, Except.mapError, List.countP_cons, is_fb0]
        rw [if_neg hoff]
        simp [Except.isOk, Except.toBool]
    | FixedArray t n =>
      have hn : n = 0 := by simpa [is_empty_bytes_valid_encoding] using hp
      subst hn
      have hdp : decode_param (.FixedArray t 0) ([] : List Nat) off =
          .ok (.FixedArray [], off) := by rfl
      simp only [decode_loop, hdp, Except.mapError, exc_isOk_bind_ok,
        List.countP_cons, is_fb0]
      rw [ihs off]
      simp
    | Address => simp [is_empty_bytes_valid_encoding] at hp
    | Bytes => simp [is_empty_bytes_valid_encoding] at hp
    | Int m => simp [is_empty_bytes_valid_encoding] at hp
    | Uint m => simp [is_empty_bytes_valid_encoding] at hp
    | Bool => simp [is_empty_bytes_valid_encoding] at hp
    | String => simp [is_empty_bytes_valid_encoding] at hp
    | Array t => simp [is_empty_bytes_valid_encoding] at hp

/-- **C2.** Empty-input decode policy, amended: `decode(types, [])` succeeds
iff every type has the empty-bytes valid-encoding property (`FixedBytes(0)`
or `FixedArray(_, 0)`) *and* at most one of them is `FixedBytes(0)`; when
some type lacks the property, the failure is the `bail!` message error of
`decode`, not the `InvalidData` variant. -/
theorem decode_empty_characterization (types : List ParamType) :
    (types.all is_empty_bytes_valid_encoding = true →
      ((decode types []).isOk = true ↔ types.countP is_fb0 ≤ 1)) ∧
    (types.all is_empty_bytes_valid_encoding = false →
      decode types [] = .error (.Msg empty_bytes_bail_msg)) := by
  constructor
  · intro h
    unfold decode
    rw [if_neg (by simp [h])]
    simpa using decode_loop_empty_valid types h 0
  · intro h
    unfold decode
    rw [if_pos (by simp [h])]

/-- **C2 witness.** `[FixedBytes(0), FixedArray(Bool, 0)]` decodes the empty
byte string successfully (all types empty-valid, one `FixedBytes(0)`), and
`[Address]` fails with the message error. -/
theorem decode_empty_characterization_witness :
    (decode [ParamType.FixedBytes 0, ParamType.FixedArray .Bool 0] []).isOk = true ∧
    decode [ParamType.Address] [] = .error (.Msg empty_bytes_bail_msg) := by
  constructor
  · exact ((decode_empty_characterization
      [ParamType.FixedBytes 0, ParamType.FixedArray .Bool 0]).1 (by rfl)).mpr (by decide)
  · exact (decode_empty_characterization [ParamType.Address]).2 (by rfl)

theorem peek_mono (data extra : List Nat) (o l : Nat) (r : List Nat)
    (h : peek data o l = .ok r) : peek (data ++ extra) o l = .ok r := by
  unfold peek at h ⊢
  by_cases hb : o + l > data.length
  · rw [if_pos hb] at h; cases h
  · rw [if_neg hb] at h
    have hle : o + l ≤ data.length := Nat.not_lt.mp hb
    rw [if_neg (by rw [List.length_append]; omega)]
    rw [List.drop_append_of_le_length (by omega),
      List.take_append_of_le_length (by rw [List.length_drop]; omega)]
    exact h

theorem peek_32_bytes_mono (data extra : List Nat) (o : Nat) (r : List Nat)
    (h : peek_32_bytes data o = .ok r) : peek_32_bytes (data ++ extra) o = .ok r :=
  peek_mono data extra o 32 r h

theorem take_bytes_mono (data extra : List Nat) (o l : Nat) (r : List Nat)
    (h : take_bytes data o l = .ok r) : take_bytes (data ++ extra) o l = .ok r := by
  unfold take_bytes at h ⊢
  by_cases hb : o + l > data.length
  · rw [if_pos hb] at h; cases h
  · rw [if_neg hb] at h
    have hle : o + l ≤ data.length := Nat.not_lt.mp hb
    rw [if_neg (by rw [List.length_append]; omega)]
    rw [List.drop_append_of_le_length (by omega),
      List.take_append_of_le_length (by rw [List.length_drop]; omega)]
    exact h

theorem decode_elems_mono (f : List Nat → Nat → Except DecError (Token × Nat))
    (data data' : List Nat)
    (hf : ∀ off r, f data off = .ok r → f data' off = .ok r) :
    ∀ n off r, decode_elems f n data off = .ok r → decode_elems f n data' off = .ok r := by
  intro n
  induction n with
  | zero => intro off r h; exact h
  | succ n ih =>
    intro off r h
    simp only [decode_elems] at h ⊢
    cases h0 : f data off with
    | error e => rw [h0] at h; cases h
    | ok r0 =>
      rw [h0] at h
      rw [hf off r0 h0]
      rw [exc_bind_ok] at h ⊢
      cases h1 : decode_elems f n data r0.2 with
      | error e => rw [h1] at h; cases h
      | ok rs =>
        rw [h1] at h
        rw [ih r0.2 rs h1]
        exact h

theorem decode_param_mono (data extra : List Nat) :
    ∀ (p : ParamType) (off : Nat) (r : Token × Nat),
      decode_param p data off = .ok r → decode_param p (data ++ extra) off = .ok r := by
  intro p
  induction p with
  | Address =>
    intro off r h
    simp only [decode_param] at h ⊢
    cases h0 : peek_32_bytes data off with
    | error e => rw [h0] at h; cases h
    | ok s => rw [h0] at h; rw [peek_32_bytes_mono data extra off s h0]; exact h
  | Int n =>
    intro off r h
    simp only [decode_param] at h ⊢
    cases h0 : peek_32_bytes data off with
    | error e => rw [h0] at h; cases h
    | ok s => rw [h0] at h; rw [peek_32_bytes_mono data extra off s h0]; exact h
  | Uint n =>
    intro off r h
    simp only [decode_param] at h ⊢
    cases h0 : peek_32_bytes data off with
    | error e => rw [h0] at h; cases h
    | ok s => rw [h0] at h; rw [peek_32_bytes_mono data extra off s h0]; exact h
  | Bool =>
    intro off r h
    simp only [decode_param] at h ⊢
    cases h0 : peek_32_bytes data off with
    | error e => rw [h0] at h; cases h
    | ok s => rw [h0] at h; rw [peek_32_bytes_mono data extra off s h0]; exact h
  | FixedBytes n =>
    intro off r h
    simp only [decode_param] at h ⊢
    cases h0 : take_bytes data off n with
    | error e => rw [h0] at h; cases h
    | ok s => rw [h0] at h; rw [take_bytes_mono data extra off n s h0]; exact h
  | Bytes =>
    intro off r h
    simp only [decode_param] at h ⊢
    cases h0 : peek_32_bytes data off with
    | error e => rw [h0] at h; cases h
    | ok s =>
      rw [h0] at h; rw [peek_32_bytes_mono data extra off s h0]
      rw [exc_bind_ok] at h ⊢
      cases h1 : as_usize s with
      | error e => rw [h1] at h; cases h
      | ok dyn =>
        rw [h1] at h
        rw [exc_bind_ok] at h ⊢
        cases h2 : peek_32_bytes data dyn with
        | error e => rw [h2] at h; cases h
        | ok s2 =>
          rw [h2] at h; rw [peek_32_bytes_mono data extra dyn s2 h2]
          rw [exc_bind_ok] at h ⊢
          cases h3 : as_usize s2 with
          | error e => rw [h3] at h; cases h
          | ok len =>
            rw [h3] at h
            rw [exc_bind_ok] at h ⊢
            cases h4 : take_bytes data (dyn + 32) len with
            | error e => rw [h4] at h; cases h
            | ok bs =>
              rw [h4] at h; rw [take_bytes_mono data extra (dyn + 32) len bs h4]
              exact h
  | String =>
    intro off r h
    simp only [decode_param] at h ⊢
    cases h0 : peek_32_bytes data off with
    | error e => rw [h0] at h; cases h
    | ok s =>
      rw [h0] at h; rw [peek_32_bytes_mono data extra off s h0]
      rw [exc_bind_ok] at h ⊢
      cases h1 : as_usize s with
      | error e => rw [h1] at h; cases h
      | ok dyn =>
        rw [h1] at h
        rw [exc_bind_ok] at h ⊢
        cases h2 : peek_32_bytes data dyn with
        | error e => rw [h2] at h; cases h
        | ok s2 =>
          rw [h2] at h; rw [peek_32_bytes_mono data extra dyn s2 h2]
          rw [exc_bind_ok] at h ⊢
          cases h3 : as_usize s2 with
          | error e => rw [h3] at h; cases h
          | ok len =>
            rw [h3] at h
            rw [exc_bind_ok] at h ⊢
            cases h4 : take_bytes data (dyn + 32) len with
            | error e => rw [h4] at h; cases h
            | ok bs =>
              rw [h4] at h; rw [take_bytes_mono data extra (dyn + 32) len bs h4]
              exact h
  | Array t ih =>
    intro off r h
    simp only [decode_param] at h ⊢
    cases h0 : peek_32_bytes data off with
    | error e => rw [h0] at h; cases h
    | ok s =>
      rw [h0] at h; rw [peek_32_bytes_mono data extra off s h0]
      rw [exc_bind_ok] at h ⊢
      cases h1 : as_usize s with
      | error e => rw [h1] at h; cases h
      | ok dyn =>
        rw [h1] at h
        rw [exc_bind_ok] at h ⊢
        cases h2 : peek_32_bytes data dyn with
        | error e => rw [h2] at h; cases h
        | ok s2 =>
          rw [h2] at h; rw [peek_32_bytes_mono data extra dyn s2 h2]
          rw [exc_bind_ok] at h ⊢
          cases h3 : as_usize s2 with
          | error e => rw [h3] at h; cases h
          | ok len =>
            rw [h3] at h
            rw [exc_bind_ok] at h ⊢
            cases h4 : decode_elems (decode_param t) len data (dyn + 32) with
            | error e => rw [h4] at h; cases h
            | ok rs =>
              rw [h4] at h
              rw [decode_elems_mono (decode_param t) data (data ++ extra) ih len
                (dyn + 32) rs h4]
              exact h
  | FixedArray t n ih =>
    intro off r h
    simp only [decode_param] at h ⊢
    cases h0 : decode_elems (decode_param t) n data off with
    | error e => rw [h0] at h; cases h
    | ok rs =>
      rw [h0] at h
      rw [decode_elems_mono (decode_param t) data (data ++ extra) ih n off rs h0]
      exact h

theorem decode_loop_mono (data extra : List Nat) :
    ∀ (ps : List ParamType) (off : Nat) (toks : List Token),
      decode_loop ps data off = .ok toks → decode_loop ps (data ++ extra) off = .ok toks := by
  intro ps
  induction ps with
  | nil => intro off toks h; exact h
  | cons p ps ih =>
    intro off toks h
    simp only [decode_loop] at h ⊢
    cases h0 : decode_param p data off with
    | error e => rw [h0] at h; simp [Except.mapError] at h
    | ok r =>
      rw [h0] at h
      rw [decode_param_mono data extra p off r h0]
      simp only [Except.mapError] at h ⊢
      cases h1 : decode_loop ps data r.2 with
      | error e => rw [h1] at h; cases h
      | ok toks' =>
        rw [h1] at h
        rw [ih r.2 toks' h1]
        exact h

/-- **C9.** Decoder tolerates trailing bytes: whenever `decode(types, data)`
succeeds with `tokens`, `decode(types, data ++ extra)` succeeds with the same
`tokens` — the decoder never requires its input to be exactly consumed. -/
theorem decode_trailing_bytes (types : List ParamType) (data extra : List Nat)
    (toks : List Token) (h : decode types data = .ok toks) :
    decode types (data ++ extra) = .ok toks := by
  unfold decode at h ⊢
  by_cases hc : (!types.all is_empty_bytes_valid_encoding && data.isEmpty) = true
  · rw [if_pos hc] at h; cases h
  · rw [if_neg hc] at h
    by_cases hc2 : (!types.all is_empty_bytes_valid_encoding && (data ++ extra).isEmpty) = true
    · exfalso
      apply hc
      have h2 := (Bool.and_eq_true _ _).mp hc2
      have hde : data ++ extra = [] := by
        simpa [List.isEmpty_iff] using h2.2
      rcases List.append_eq_nil.mp hde with ⟨hd, _⟩
      subst hd
      simp [h2.1]
    · rw [if_neg hc2]
      exact decode_loop_mono data extra types 0 toks h

/-- **C9 witness.** A Bool word decode is unchanged by a trailing byte. -/
theorem decode_trailing_bytes_witness :
    decode [ParamType.Bool] (word_last 1 ++ [7]) = .ok [.Bool true] :=
  decode_trailing_bytes [ParamType.Bool] (word_last 1) [7] [.Bool true] (by rfl)

theorem foldl_digits_ge (ds : List Char) :
    ∀ acc : Nat, acc ≤ ds.foldl (fun a c => a * 10 + (c.toNat - 48)) acc := by
  induction ds with
  | nil => intro acc; simp
  | cons c cs ih =>
    intro acc
    simp only [List.foldl_cons]
    exact le_trans (by omega) (ih (acc * 10 + (c.toNat - 48)))

theorem is_digit_char_prop {c : Char} (h : is_digit_char c = true) :
    48 ≤ c.toNat ∧ c.toNat ≤ 57 := by
  simpa [is_digit_char, Bool.and_eq_true, decide_eq_true_iff] using h

theorem from_dec_go_ok (ds : List Char) (hall : ds.all is_digit_char = true) :
    ∀ acc : Nat, ds.foldl (fun a c => a * 10 + (c.toNat - 48)) acc < 2 ^ 256 →
      from_dec_str_go acc ds = .ok (ds.foldl (fun a c => a * 10 + (c.toNat - 48)) acc) := by
  induction ds with
  | nil => intro acc _; rfl
  | cons c cs ih =>
    intro acc h
    have hb := (Bool.and_eq_true _ _).mp (by rw [List.all_cons] at hall; exact hall)
    have hc := is_digit_char_prop hb.1
    simp only [List.foldl_cons] at h ⊢
    have hge := foldl_digits_ge cs (acc * 10 + (c.toNat - 48))
    unfold from_dec_str_go
    rw [if_pos hc, if_neg (by omega), if_neg (by omega)]
    exact ih hb.2 (acc * 10 + (c.toNat - 48)) h

theorem from_dec_go_overflow (ds : List Char) (hall : ds.all is_digit_char = true) :
    ∀ acc : Nat, acc < 2 ^ 256 →
      2 ^ 256 ≤ ds.foldl (fun a c => a * 10 + (c.toNat - 48)) acc →
      from_dec_str_go acc ds = .error .InvalidLength := by
  induction ds with
  | nil => intro acc hlt hge; simp only [List.foldl_nil] at hge; omega
  | cons c cs ih =>
    intro acc hlt hge
    have hb := (Bool.and_eq_true _ _).mp (by rw [List.all_cons] at hall; exact hall)
    have hc := is_digit_char_prop hb.1
    simp only [List.foldl_cons] at hge
    unfold from_dec_str_go
    rw [if_pos hc]
    by_cases h1 : acc * 10 ≥ 2 ^ 256
    · rw [if_pos h1]
    · rw [if_neg h1]
      by_cases h2 : acc * 10 + (c.toNat - 48) ≥ 2 ^ 256
      · rw [if_pos h2]
      · rw [if_neg h2]
        exact ih hb.2 (acc * 10 + (c.toNat - 48)) (by omega) hge

theorem from_dec_str_ok (ds : List Char) (hall : ds.all is_digit_char = true)
    (h : digits_val ds < 2 ^ 256) : from_dec_str ds = .ok (digits_val ds) :=
  from_dec_go_ok ds hall 0 h

theorem from_dec_str_overflow (ds : List Char) (hall : ds.all is_digit_char = true)
    (h : 2 ^ 256 ≤ digits_val ds) : from_dec_str ds = .error .InvalidLength :=
  from_dec_go_overflow ds hall 0 (by positivity) h

theorem foldl_digits_lt (ds : List Char) (hall : ds.all is_digit_char = true) :
    ∀ acc : Nat, ds.foldl (fun a c => a * 10 + (c.toNat - 48)) acc < (acc + 1) * 10 ^ ds.length := by
  induction ds with
  | nil => intro acc; simp
  | cons c cs ih =>
    intro acc
    have hb := (Bool.and_eq_true _ _).mp (by rw [List.all_cons] at hall; exact hall)
    have hc := is_digit_char_prop hb.1
    simp only [List.foldl_cons, List.length_cons]
    calc List.foldl (fun a c => a * 10 + (c.toNat - 48)) (acc * 10 + (c.toNat - 48)) cs
        < (acc * 10 + (c.toNat - 48) + 1) * 10 ^ cs.length := ih hb.2 _
      _ ≤ ((acc + 1) * 10) * 10 ^ cs.length :=
          Nat.mul_le_mul_right _ (by omega)
      _ = (acc + 1) * 10 ^ (cs.length + 1) := by ring

theorem digits_val_lt (ds : List Char) (hall : ds.all is_digit_char = true) :
    digits_val ds < 10 ^ ds.length := by
  simpa [digits_val] using foldl_digits_lt ds hall 0

theorem digit_char_ne_dash {c : Char} (h : is_digit_char c = true) : (c == '-') = false := by
  have hc := is_digit_char_prop h
  have hne : c ≠ '-' := by
    intro he
    subst he
    revert hc
    decide
  exact beq_eq_false_iff_ne.mpr hne

theorem digits_dropWhile_dash (ds : List Char) (hne : ds ≠ [])
    (hall : ds.all is_digit_char = true) : ds.dropWhile (· == '-') = ds := by
  cases ds with
  | nil => rfl
  | cons c cs =>
    have hb := (Bool.and_eq_true _ _).mp (by rw [List.all_cons] at hall; exact hall)
    rw [List.dropWhile_cons, digit_char_ne_dash hb.1]
    simp

theorem digit_imp_hex {c : Char} (h : is_digit_char c = true) : is_hex_digit c = true := by
  have hc := is_digit_char_prop h
  simp only [is_hex_digit, Bool.or_eq_true, Bool.and_eq_true, decide_eq_true_iff]
  left; left; omega

theorem strict_fails_not64 (ds : List Char) (hlen : ds.length ≠ 64) :
    strict_tokenize_int ds = .error .InvalidData := by
  unfold strict_tokenize_int
  rw [if_neg (by simp [hlen])]

theorem strict_fails_dash (ds : List Char) :
    strict_tokenize_int ('-' :: ds) = .error .InvalidData := by
  unfold strict_tokenize_int
  rw [if_neg]
  simp only [List.all_cons, Bool.and_eq_true]
  rintro ⟨-, h, -⟩
  revert h
  decide

theorem strict_ok_64 (ds : List Char) (hall : ds.all is_digit_char = true)
    (hlen : ds.length = 64) : strict_tokenize_int ds = .ok (hex_to_bytes ds) := by
  unfold strict_tokenize_int
  rw [if_pos]
  simp only [Bool.and_eq_true, beq_iff_eq]
  exact ⟨hlen, List.all_eq_true.mpr fun c hc =>
    digit_imp_hex (List.all_eq_true.mp hall c hc)⟩

theorem pow_255_lt_256 : (2 : Nat) ^ 255 < 2 ^ 256 :=
  Nat.pow_lt_pow_right (by norm_num) (by norm_num)

theorem pow10_64_lt : (10 : Nat) ^ 64 < 2 ^ 255 := by norm_num

theorem max_u256_half : ((2 : Nat) ^ 256 - 1) / 2 = 2 ^ 255 - 1 := by
  have h256 : (2 : Nat) ^ 256 = 2 ^ 255 * 2 := by rw [← pow_succ]
  omega

/-- **C5.** Lenient signed-integer tokenizing, amended: for a decimal string
(optional single minus sign, then digits of value `v`), `tokenize_int`
succeeds exactly when the value lies in `[-2^255, 2^255-1]`, storing
negatives as the two's-complement word of `2^256 - v`; positive values in
`(2^255-1, 2^256)` fail with message `int256 parse error: Overflow` and
negative values in `(2^255, 2^256)` with `int256 parse error: Underflow`,
but values whose magnitude reaches `2^256` fail earlier, inside the `U256`
decimal parser, with `Uint parse error: InvalidLength` (and 64-digit
positive strings are accepted through the strict tokenizer's hex path). -/
theorem tokenize_int_characterization (ds : List Char) (hne : ds ≠ [])
    (hall : ds.all is_digit_char = true) :
    (digits_val ds ≤ 2 ^ 255 - 1 → ∃ w, tokenize_int (String.mk ds) = .ok w) ∧
    (2 ^ 255 - 1 < digits_val ds → digits_val ds < 2 ^ 256 →
      tokenize_int (String.mk ds) = .error (.Other "int256 parse error: Overflow")) ∧
    (2 ^ 256 ≤ digits_val ds →
      tokenize_int (String.mk ds) = .error (.Other "Uint parse error: InvalidLength")) ∧
    (digits_val ds = 0 → tokenize_int (String.mk ('-' :: ds)) = .ok (uint_to_word 0)) ∧
    (1 ≤ digits_val ds → digits_val ds ≤ 2 ^ 255 →
      tokenize_int (String.mk ('-' :: ds)) = .ok (uint_to_word (2 ^ 256 - digits_val ds))) ∧
    (2 ^ 255 < digits_val ds → digits_val ds < 2 ^ 256 →
      tokenize_int (String.mk ('-' :: ds)) = .error (.Other "int256 parse error: Underflow")) ∧
    (2 ^ 256 ≤ digits_val ds →
      tokenize_int (String.mk ('-' :: ds)) = .error (.Other "Uint parse error: InvalidLength")) := by
  obtain ⟨c, cs, rfl⟩ : ∃ c cs, ds = c :: cs := by
    cases ds with
    | nil => exact absurd rfl hne
    | cons c cs => exact ⟨c, cs, rfl⟩
  set ds := c :: cs with hds
  have hb := (Bool.and_eq_true _ _).mp (by rw [hds, List.all_cons] at hall; exact hall)
  have hdropp : ds.dropWhile (· == '-') = ds := digits_dropWhile_dash ds hne hall
  have hdropn : ('-' :: ds).dropWhile (· == '-') = ds := by
    rw [List.dropWhile_cons]
    simp only [show (('-' : Char) == '-') = true from rfl, if_true]
    exact hdropp
  have hheadp : ((String.mk ds).data.head? == some '-') = false := by
    show ((some c : Option Char) == some '-') = false
    show (c == '-') = false
    exact digit_char_ne_dash hb.1
  have hheadn : ((String.mk ('-' :: ds)).data.head? == some '-') = true := by rfl
  have hmax := max_u256_half
  have h2556 := pow_255_lt_256
  refine ⟨?_, ?_, ?_, ?_, ?_, ?_, ?_⟩
  · -- positive, in range: success
    intro hv
    by_cases hlen : ds.length = 64
    · refine ⟨hex_to_bytes ds, ?_⟩
      unfold tokenize_int
      rw [strict_ok_64 ds hall hlen]
    · refine ⟨uint_to_word (digits_val ds), ?_⟩
      unfold tokenize_int
      rw [strict_fails_not64 ds hlen]
      show (match from_dec_str (ds.dropWhile (· == '-')) with
        | .error .InvalidCharacter => _ | .error .InvalidLength => _ | .ok abs => _) = _
      rw [hdropp, from_dec_str_ok ds hall (by omega)]
      simp only
      rw [if_neg (by rw [hheadp]; simp)]
      rw [if_neg (by omega)]
  · -- positive, overflow band
    intro hv1 hv2
    have hlen : ds.length ≠ 64 := by
      intro hlen
      have := digits_val_lt ds hall
      rw [hlen] at this
      have := pow10_64_lt
      omega
    unfold tokenize_int
    rw [strict_fails_not64 ds hlen]
    show (match from_dec_str (ds.dropWhile (· == '-')) with
      | .error .InvalidCharacter => _ | .error .InvalidLength => _ | .ok abs => _) = _
    rw [hdropp, from_dec_str_ok ds hall hv2]
    simp only
    rw [if_neg (by rw [hheadp]; simp)]
    rw [if_pos (by omega)]
  · -- positive, beyond U256
    intro hv
    have hlen : ds.length ≠ 64 := by
      intro hlen
      have := digits_val_lt ds hall
      rw [hlen] at this
      have := pow10_64_lt
      omega
    unfold tokenize_int
    rw [strict_fails_not64 ds hlen]
    show (match from_dec_str (ds.dropWhile (· == '-')) with
      | .error .InvalidCharacter => _ | .error .InvalidLength => _ | .ok abs => _) = _
    rw [hdropp, from_dec_str_overflow ds hall hv]
  · -- negative zero
    intro hv
    unfold tokenize_int
    rw [strict_fails_dash ds]
    show (match from_dec_str (('-' :: ds).dropWhile (· == '-')) with
      | .error .InvalidCharacter => _ | .error .InvalidLength => _ | .ok abs => _) = _
    rw [hdropn, from_dec_str_ok ds hall (by omega)]
    simp only
    rw [if_pos (by rw [hheadn])]
    rw [if_pos (by rw [hv]; rfl), hv]
  · -- negative, in range
    intro hv1 hv2
    unfold tokenize_int
    rw [strict_fails_dash ds]
    show (match from_dec_str (('-' :: ds).dropWhile (· == '-')) with
      | .error .InvalidCharacter => _ | .error .InvalidLength => _ | .ok abs => _) = _
    rw [hdropn, from_dec_str_ok ds hall (by omega)]
    simp only
    rw [if_pos (by rw [hheadn])]
    rw [if_neg (by simp; omega)]
    rw [if_neg (by omega)]
    congr 1
    have : 2 ^ 256 - 1 - digits_val ds + 1 = 2 ^ 256 - digits_val ds := by omega
    rw [this, Nat.mod_eq_of_lt (by omega)]
  · -- negative, underflow band
    intro hv1 hv2
    unfold tokenize_int
    rw [strict_fails_dash ds]
    show (match from_dec_str (('-' :: ds).dropWhile (· == '-')) with
      | .error .InvalidCharacter => _ | .error .InvalidLength => _ | .ok abs => _) = _
    rw [hdropn, from_dec_str_ok ds hall hv2]
    simp only
    rw [if_pos (by rw [hheadn])]
    rw [if_neg (by simp; omega)]
    rw [if_pos (by omega)]
  · -- negative, beyond U256
    intro hv
    unfold tokenize_int
    rw [strict_fails_dash ds]
    show (match from_dec_str (('-' :: ds).dropWhile (· == '-')) with
      | .error .InvalidCharacter => _ | .error .InvalidLength => _ | .ok abs => _) = _
    rw [hdropn, from_dec_str_overflow ds hall hv]

set_option maxRecDepth 100000 in
/-- **C5 witness.** `"-2"` tokenizes to the two's-complement word
`0xff…fe`; `-2^255` succeeds; `-2^255 - 1` (absolute value `2^255 + 1`)
fails with the underflow message. -/
theorem tokenize_int_characterization_witness :
    tokenize_int "-2" = .ok (List.replicate 31 255 ++ [254]) ∧
    (tokenize_int
      "-57896044618658097711785492504343953926634992332820282019728792003956564819968").isOk
        = true ∧
    tokenize_int
      "-57896044618658097711785492504343953926634992332820282019728792003956564819969" =
        .error (.Other "int256 parse error: Underflow") := by
  refine ⟨?_, ?_, ?_⟩
  · have h := (tokenize_int_characterization ['2'] (by decide) (by decide)).2.2.2.2.1
      (by decide) (by decide)
    rw [show String.mk ['-', '2'] = "-2" from rfl] at h
    rw [h]
    rfl
  · have h := (tokenize_int_characterization
      "57896044618658097711785492504343953926634992332820282019728792003956564819968".data
      (by decide) (by decide)).2.2.2.2.1 (by decide) (by decide)
    rw [h]
    rfl
  · have h := (tokenize_int_characterization
      "57896044618658097711785492504343953926634992332820282019728792003956564819969".data
      (by decide) (by decide)).2.2.2.2.2.1 (by decide) (by decide)
    rw [h]

/-- **C5 counterexample.** The decimal value `2^256` exceeds `2^255 - 1`, yet
`tokenize_int` does not fail with the claimed overflow message: the `U256`
decimal parser rejects it first with `Uint parse error: InvalidLength`. -/
theorem tokenize_int_counterexample :
    tokenize_int
      "115792089237316195423570985008687907853269984665640564039457584007913129639936" =
        .error (.Other "Uint parse error: InvalidLength") ∧
    DecError.Other "Uint parse error: InvalidLength" ≠
      DecError.Other "int256 parse error: Overflow" := by
  refine ⟨by rfl, by decide⟩

theorem lookup_last_not_mem (l : List (String × Token)) (k : String)
    (h : ∀ x ∈ l, x.1 ≠ k) : lookup_last l k = none := by
  unfold lookup_last
  rw [List.find?_eq_none.mpr]
  · rfl
  · intro x hx
    simp only [beq_iff_eq]
    exact h x (List.mem_reverse.mp hx)

theorem lookup_last_cons_ne (k' : String) (v : Token) (l : List (String × Token))
    (k : String) (h : k' ≠ k) : lookup_last ((k', v) :: l) k = lookup_last l k := by
  unfold lookup_last
  rw [List.reverse_cons, List.find?_append]
  have hb : (k' == k) = false := beq_eq_false_iff_ne.mpr h
  have : List.find? (fun x => x.1 == k) [(k', v)] = none := by
    simp [List.find?, hb]
  rw [this, Option.or_none]

theorem lookup_last_cons_fresh (k : String) (v : Token) (l : List (String × Token))
    (h : ∀ x ∈ l, x.1 ≠ k) : lookup_last ((k, v) :: l) k = some v := by
  unfold lookup_last
  rw [List.reverse_cons, List.find?_append]
  have h1 : List.find? (fun x => x.1 == k) l.reverse = none := by
    rw [List.find?_eq_none]
    intro x hx
    simp only [beq_iff_eq]
    exact h x (List.mem_reverse.mp hx)
  rw [h1]
  simp [List.find?]

theorem decode_loop_length :
    ∀ (ps : List ParamType) (data : List Nat) (off : Nat) (toks : List Token),
      decode_loop ps data off = .ok toks → toks.length = ps.length := by
  intro ps
  induction ps with
  | nil => intro data off toks h; cases h; rfl
  | cons p ps ih =>
    intro data off toks h
    simp only [decode_loop] at h
    cases h0 : decode_param p data off with
    | error e => rw [h0] at h; simp [Except.mapError] at h
    | ok r =>
      rw [h0] at h
      simp only [Except.mapError] at h
      cases h1 : decode_loop ps data r.2 with
      | error e => rw [h1] at h; cases h
      | ok toks' =>
        rw [h1] at h
        rw [exc_bind_ok] at h
        cases h
        simp [ih data r.2 toks' h1]

theorem decode_length (ps : List ParamType) (data : List Nat) (toks : List Token)
    (h : decode ps data = .ok toks) : toks.length = ps.length := by
  unfold decode at h
  by_cases hc : (!ps.all is_empty_bytes_valid_encoding && data.isEmpty) = true
  · rw [if_pos hc] at h; cases h
  · rw [if_neg hc] at h; exact decode_loop_length ps data 0 toks h

theorem zip_keys_ne {names : List String} {toks : List Token} {k : String}
    (h : k ∉ names) : ∀ x ∈ names.zip toks, x.1 ≠ k := by
  rintro ⟨a, b⟩ hx rfl
  exact h (List.of_mem_zip hx).1

theorem lookup_merge :
    ∀ (inputs : List EventParam) (tt dt : List Token),
      (inputs.map (·.name)).Nodup →
      inputs.map (fun p => (⟨p.name,
          (lookup_last (((inputs.filter (·.indexed == true)).map (·.name)).zip tt ++
            ((inputs.filter (·.indexed == false)).map (·.name)).zip dt) p.name).getD
            (.Bool false)⟩ : LogParam)) =
        merge_log_params inputs tt dt := by
  intro inputs
  induction inputs with
  | nil => intro tt dt _; rfl
  | cons p ps ih =>
    intro tt dt hnd
    rw [List.map_cons] at hnd
    have hnd' := List.nodup_cons.mp hnd
    have hnotin : p.name ∉ ps.map (·.name) := hnd'.1
    have hne : ∀ q ∈ ps, q.name ≠ p.name := by
      intro q hq he
      exact hnotin (he ▸ List.mem_map_of_mem (·.name) hq)
    -- keys of the ps-side association lists avoid p.name
    have hkeysI : ∀ x ∈ ((ps.filter (·.indexed == true)).map (·.name)).zip tt.tail,
        x.1 ≠ p.name := by
      apply zip_keys_ne
      intro hmem
      rcases List.mem_map.mp hmem with ⟨q, hq, he⟩
      exact hne q (List.mem_of_mem_filter hq) he
    have hkeysI' : ∀ (ts : List Token),
        ∀ x ∈ ((ps.filter (·.indexed == true)).map (·.name)).zip ts, x.1 ≠ p.name := by
      intro ts
      apply zip_keys_ne
      intro hmem
      rcases List.mem_map.mp hmem with ⟨q, hq, he⟩
      exact hne q (List.mem_of_mem_filter hq) he
    have hkeysD' : ∀ (ts : List Token),
        ∀ x ∈ ((ps.filter (·.indexed == false)).map (·.name)).zip ts, x.1 ≠ p.name := by
      intro ts
      apply zip_keys_ne
      intro hmem
      rcases List.mem_map.mp hmem with ⟨q, hq, he⟩
      exact hne q (List.mem_of_mem_filter hq) he
    cases hind : p.indexed with
    | true =>
      have hfT : (p :: ps).filter (·.indexed == true) = p :: ps.filter (·.indexed == true) := by
        simp [List.filter_cons, hind]
      have hfF : (p :: ps).filter (·.indexed == false) = ps.filter (·.indexed == false) := by
        simp [List.filter_cons, hind]
      rw [hfT, hfF]
      cases tt with
      | nil =>
        rw [List.map_cons, merge_log_params]
        rw [if_pos hind]
        simp only [List.map_cons, List.zip_nil_right, List.nil_append]
        have hmiss : lookup_last (((ps.filter (·.indexed == false)).map (·.name)).zip dt)
            p.name = none := lookup_last_not_mem _ _ (hkeysD' dt)
        rw [hmiss]
        have := ih [] dt hnd'.2
        rw [List.zip_nil_right, List.nil_append] at this
        rw [this]
        rfl
      | cons v tt' =>
        rw [List.map_cons, merge_log_params]
        rw [if_pos hind]
        simp only [List.map_cons, List.zip_cons_cons, List.cons_append]
        have hfresh : lookup_last ((p.name, v) ::
            (((ps.filter (·.indexed == true)).map (·.name)).zip tt' ++
              ((ps.filter (·.indexed == false)).map (·.name)).zip dt)) p.name = some v := by
          apply lookup_last_cons_fresh
          intro x hx
          rcases List.mem_append.mp hx with hx | hx
          · exact hkeysI' tt' x hx
          · exact hkeysD' dt x hx
        rw [hfresh]
        have hrest : ps.map (fun q => (⟨q.name,
            (lookup_last ((p.name, v) ::
              (((ps.filter (·.indexed == true)).map (·.name)).zip tt' ++
                ((ps.filter (·.indexed == false)).map (·.name)).zip dt)) q.name).getD
              (.Bool false)⟩ : LogParam)) =
            ps.map (fun q => (⟨q.name,
            (lookup_last
              (((ps.filter (·.indexed == true)).map (·.name)).zip tt' ++
                ((ps.filter (·.indexed == false)).map (·.name)).zip dt) q.name).getD
              (.Bool false)⟩ : LogParam)) := by
          apply List.map_congr_left
          intro q hq
          rw [lookup_last_cons_ne _ _ _ _ (fun he => hne q hq he.symm)]
        rw [hrest, ih tt' dt hnd'.2]
        simp
    | false =>
      have hfT : (p :: ps).filter (·.indexed == true) = ps.filter (·.indexed == true) := by
        simp [List.filter_cons, hind]
      have hfF : (p :: ps).filter (·.indexed == false) = p :: ps.filter (·.indexed == false) := by
        simp [List.filter_cons, hind]
      rw [hfT, hfF]
      cases dt with
      | nil =>
        rw [List.map_cons, merge_log_params]
        rw [if_neg (by simp [hind])]
        simp only [List.map_cons, List.zip_nil_right, List.append_nil]
        have hmiss : lookup_last (((ps.filter (·.indexed == true)).map (·.name)).zip tt)
            p.name = none := lookup_last_not_mem _ _ (hkeysI' tt)
        rw [hmiss]
        have := ih tt [] hnd'.2
        rw [List.zip_nil_right, List.append_nil] at this
        rw [this]
        rfl
      | cons v dt' =>
        rw [List.map_cons, merge_log_params]
        rw [if_neg (by simp [hind])]
        simp only [List.map_cons, List.zip_cons_cons]
        have hsplit : (((ps.filter (·.indexed == true)).map (·.name)).zip tt ++
            ((p.name, v) :: ((ps.filter (·.indexed == false)).map (·.name)).zip dt')) =
            (((ps.filter (·.indexed == true)).map (·.name)).zip tt ++
              [(p.name, v)]) ++ ((ps.filter (·.indexed == false)).map (·.name)).zip dt' := by
          simp
        have hfreshD : lookup_last (((ps.filter (·.indexed == true)).map (·.name)).zip tt ++
            ((p.name, v) :: ((ps.filter (·.indexed == false)).map (·.name)).zip dt'))
            p.name = some v := by
          unfold lookup_last
          rw [List.reverse_append, List.reverse_cons, List.find?_append, List.find?_append]
          have h1 : List.find? (fun x => x.1 == p.name)
              (((ps.filter (·.indexed == false)).map (·.name)).zip dt').reverse = none := by
            rw [List.find?_eq_none]
            intro x hx
            simp only [beq_iff_eq]
            exact hkeysD' dt' x (List.mem_reverse.mp hx)
          have h2 : List.find? (fun x => x.1 == p.name)
              (((ps.filter (·.indexed == true)).map (·.name)).zip tt).reverse = none := by
            rw [List.find?_eq_none]
            intro x hx
            simp only [beq_iff_eq]
            exact hkeysI' tt x (List.mem_reverse.mp hx)
          rw [h1, h2]
          simp [List.find?]
        rw [hfreshD]
        have hrest : ps.map (fun q => (⟨q.name,
            (lookup_last (((ps.filter (·.indexed == true)).map (·.name)).zip tt ++
              ((p.name, v) :: ((ps.filter (·.indexed == false)).map (·.name)).zip dt'))
              q.name).getD (.Bool false)⟩ : LogParam)) =
            ps.map (fun q => (⟨q.name,
            (lookup_last
              (((ps.filter (·.indexed == true)).map (·.name)).zip tt ++
                ((ps.filter (·.indexed == false)).map (·.name)).zip dt') q.name).getD
              (.Bool false)⟩ : LogParam)) := by
          apply List.map_congr_left
          intro q hq
          have hqe : q.name ≠ p.name := fun he => hne q hq he
          unfold lookup_last
          rw [List.reverse_append, List.reverse_cons, List.find?_append, List.find?_append,
            List.reverse_append, List.find?_append]
          have hb : (p.name == q.name) = false :=
            beq_eq_false_iff_ne.mpr fun he => hqe he.symm
          have hmid : List.find? (fun x => x.1 == q.name) [(p.name, v)] = none := by
            simp [List.find?, hb]
          rw [hmid]
          simp [Option.or_none, Option.none_or]
        rw [hrest, ih tt dt' hnd'.2]
        simp

/-- **C4.** Event log parsing, amended with the requirement that the event's
input parameter names are pairwise distinct (reassembly is keyed by
parameter name, so duplicate-named inputs all receive the last-keyed value).
For a non-anonymous event: a missing or mismatching first topic fails with
`InvalidData`; success forces the number of topics after the signature topic
to equal the number of indexed parameters; and the result is one `LogParam`
per input in declaration order, indexed params taking the topic-decoded
tokens and the rest the data-decoded tokens. -/
theorem parse_log_characterization (kec : List Nat → List Nat) (event : AbiEvent)
    (log : RawLog) (hanon : event.anonymous = false)
    (hnames : (params_names event).Nodup) :
    (log.topics = [] → parse_log kec event log = .error .InvalidData) ∧
    (∀ t0 ts, log.topics = t0 :: ts →
      (t0 == long_signature kec event.name (event_param_types event)) = false →
      parse_log kec event log = .error .InvalidData) ∧
    (∀ lg, parse_log kec event log = .ok lg →
      log.topics.length - 1 = (indexed_params event true).length ∧
      ∃ tt dt,
        decode ((indexed_params event true).map (·.kind)) (log.topics.drop 1).flatten
            = .ok tt ∧
        decode ((indexed_params event false).map (·.kind)) log.data = .ok dt ∧
        lg.params = merge_log_params event.inputs tt dt) := by
  refine ⟨?_, ?_, ?_⟩
  · intro htop
    unfold parse_log
    rw [hanon, htop]
    rfl
  · intro t0 ts htop hsig
    unfold parse_log
    rw [hanon, htop]
    simp only [Bool.false_eq_true, if_false, hsig]
    rfl
  · intro lg h
    unfold parse_log at h
    rw [hanon] at h
    simp only [Bool.false_eq_true, if_false] at h
    rcases htop : log.topics with _ | ⟨t0, ts⟩ <;> rw [htop] at h
    · cases h
    · split at h
      case h_1 heq => cases heq
      case h_2 t0' ts' heq =>
        injection heq with he1 he2
        subst he1
        subst he2
        split at h
        case isFalse hsig =>
          rw [exc_bind_error] at h
          cases h
        case isTrue hsig =>
          rw [exc_bind_ok] at h
          cases hdec : decode ((indexed_params event true).map (·.kind))
              ((List.drop 1 (t0 :: ts)).flatten) with
          | error e => rw [hdec] at h; cases h
          | ok tt =>
            rw [hdec] at h
            rw [exc_bind_ok] at h
            by_cases hlen : tt.length ≠ (t0 :: ts).length - 1
            · rw [if_pos hlen] at h
              cases h
            · rw [if_neg hlen] at h
              cases hdd : decode ((indexed_params event false).map (·.kind)) log.data with
              | error e => rw [hdd] at h; cases h
              | ok dt =>
                rw [hdd] at h
                rw [exc_bind_ok] at h
                have hlen2 := decode_length _ _ _ hdec
                constructor
                · rw [List.length_map] at hlen2
                  omega
                · refine ⟨tt, dt, rfl, rfl, ?_⟩
                  cases h
                  show (params_names event).map _ = _
                  unfold params_names
                  rw [List.map_map]
                  exact lookup_merge event.inputs tt dt hnames

/-- **C4 witness.** A two-parameter event with distinct names: an empty
topic list fails with `InvalidData`, and a first topic different from the
event's topic-0 signature hash fails with `InvalidData`. -/
theorem parse_log_characterization_witness :
    parse_log kec_stub ⟨"foo", [⟨"a", .Int 256, false⟩, ⟨"b", .Int 256, true⟩], false⟩
        ⟨[], []⟩ = .error .InvalidData ∧
    parse_log kec_stub ⟨"foo", [⟨"a", .Int 256, false⟩, ⟨"b", .Int 256, true⟩], false⟩
        ⟨[word_last 7], []⟩ = .error .InvalidData := by
  constructor
  · exact (parse_log_characterization kec_stub _ _ (by rfl) (by decide)).1 rfl
  · exact (parse_log_characterization kec_stub _ _ (by rfl) (by decide)).2.1
      (word_last 7) [] rfl (by decide)

/-- **C4 counterexample.** For an event with two inputs of the same name
`a` (first indexed, second not), `parse_log` succeeds but assigns the
data-decoded token to *both* `LogParam`s — the indexed parameter does not
receive its topic-decoded value, because reassembly is keyed by parameter
name in a last-insert-wins map. -/
theorem parse_log_counterexample :
    parse_log kec_stub dup_event ⟨[word_last 9, word_last 2], word_last 3⟩ =
      .ok ⟨[⟨"a", .Uint (word_last 3)⟩, ⟨"a", .Uint (word_last 3)⟩]⟩ ∧
    decode ((indexed_params dup_event true).map (·.kind)) (word_last 2) =
      .ok [.Uint (word_last 2)] ∧
    Token.Uint (word_last 3) ≠ Token.Uint (word_last 2) := by
  refine ⟨by rfl, by rfl, by simp [word_last]⟩
